import Mathlib

/-!
Verification of `apply_dark_theme.py`, a rule-based text rewriter.

The script holds a fixed ordered list `REPLACEMENTS` of (pattern, replacement)
string pairs, and for each target file reads the content, runs
`for old, new in REPLACEMENTS: content = re.sub(old, new, content)`,
and writes the file back only when the content changed, returning True
exactly on a successful write (False on "unchanged" and on any exception).

We embed:
* a model of Python's `re.sub` for a subset of regular expressions that is
  enough to cover the patterns in `REPLACEMENTS` (literal characters, `.`,
  alternation `|`, postfix `*`, `+`, `?`), with leftmost, priority-ordered
  (greedy/backtracking) matching — `reSub`;
* plain literal (non-regex) substring replacement — `replaceAll`;
* the pass `applyReplacements` as the fold of `reSub` over `REPLACEMENTS`;
* the per-file behaviour `apply_dark_theme` over a filesystem modelled as
  `String → Option String` (`none` = the read raises), and the batch driver
  `runBatch` from the `__main__` block.
-/

/-- Characters that are special (metacharacters) in Python `re` patterns
(outside character classes). -/
def isMeta (c : Char) : Bool :=
  c = '.' || c = '^' || c = '$' || c = '*' || c = '+' || c = '?' ||
  c = '{' || c = '}' || c = '[' || c = ']' || c = '\\' || c = '|' ||
  c = '(' || c = ')'

/-- Regular-expression abstract syntax for the subset we model. -/
inductive Rx : Type
  | eps : Rx
  | ch (c : Char) : Rx
  | anyc : Rx
  | seq (a b : Rx) : Rx
  | alt (a b : Rx) : Rx
  | star (a : Rx) : Rx
deriving DecidableEq, Repr

/-- Parse one atom of a pattern: `.` or a non-metacharacter literal. -/
def parseAtom : List Char → Option (Rx × List Char)
  | [] => none
  | c :: cs =>
    if c = '.' then some (.anyc, cs)
    else if isMeta c then none
    else some (.ch c, cs)

/-- Apply a postfix quantifier (`*`, `+`, `?`) to a parsed atom, if present. -/
def parseQuant (a : Rx) : List Char → Rx × List Char
  | [] => (a, [])
  | c :: cs =>
    if c = '*' then (.star a, cs)
    else if c = '+' then (.seq a (.star a), cs)
    else if c = '?' then (.alt a .eps, cs)
    else (a, c :: cs)

/-- Parse a concatenation of quantified atoms, stopping at `|` or the end. -/
def parseSeqFuel : Nat → List Char → Option (Rx × List Char)
  | 0, _ => none
  | _ + 1, [] => some (.eps, [])
  | f + 1, c :: cs =>
    if c = '|' then some (.eps, c :: cs)
    else
      match parseAtom (c :: cs) with
      | none => none
      | some (a, rest) =>
        let q := parseQuant a rest
        match parseSeqFuel f q.2 with
        | none => none
        | some (b, rest3) => some (.seq q.1 b, rest3)

/-- Parse alternatives separated by `|`. -/
def parseAltFuel : Nat → List Char → Option Rx
  | 0, _ => none
  | f + 1, s =>
    match parseSeqFuel (s.length + 1) s with
    | none => none
    | some (a, []) => some a
    | some (a, c :: rest) =>
      if c = '|' then (parseAltFuel f rest).map (Rx.alt a)
      else none

/-- Compile a Python pattern string (here, a list of characters) to an `Rx`;
`none` when the pattern uses a construct outside the modelled subset. -/
def pyParse (p : List Char) : Option Rx := parseAltFuel (p.length + 1) p

/-- Size measure of a regex, used to pick enough matching fuel. -/
def rxMeasure : Rx → Nat
  | .eps => 1
  | .ch _ => 1
  | .anyc => 1
  | .seq a b => rxMeasure a + rxMeasure b + 1
  | .alt a b => rxMeasure a + rxMeasure b + 1
  | .star a => rxMeasure a + 1

/-- Backtracking regex matcher: all suffixes remaining after a match of `rx`
at the start of `s`, in the engine's priority order (leftmost/greedy first).
`star` only iterates on a strictly shorter suffix, so enough fuel makes the
result exact. -/
def rxRun : Nat → Rx → List Char → List (List Char)
  | 0, _, _ => []
  | _ + 1, .eps, s => [s]
  | _ + 1, .ch _, [] => []
  | _ + 1, .ch c, a :: s => if a = c then [s] else []
  | _ + 1, .anyc, [] => []
  | _ + 1, .anyc, _ :: s => [s]
  | f + 1, .seq a b, s => (rxRun f a s).flatMap (fun s2 => rxRun f b s2)
  | f + 1, .alt a b, s => rxRun f a s ++ rxRun f b s
  | f + 1, .star a, s =>
    ((rxRun f a s).flatMap
      (fun s2 => if s2.length < s.length then rxRun f (.star a) s2 else [])) ++ [s]

/-- Length of the first (highest-priority) match of `rx` at the start of `s`,
or `none` when `rx` does not match there. -/
def rxFirst (rx : Rx) (s : List Char) : Option Nat :=
  match rxRun ((s.length + 1) * (rxMeasure rx + 1)) rx s with
  | [] => none
  | s2 :: _ => some (s.length - s2.length)

/-- Substitution loop of `re.sub`: scan left to right; at each position take
the first match if any, emit the replacement and continue after the match
(after one character for an empty match), else keep the character. -/
def pySubFuel (rx : Rx) (rep : List Char) : Nat → List Char → List Char
  | 0, s => s
  | f + 1, s =>
    match rxFirst rx s with
    | none =>
      match s with
      | [] => []
      | c :: cs => c :: pySubFuel rx rep f cs
    | some 0 =>
      match s with
      | [] => rep
      | c :: cs => rep ++ c :: pySubFuel rx rep f cs
    | some (n + 1) => rep ++ pySubFuel rx rep f (s.drop (n + 1))

/-- Model of `re.sub(old, new, content)` for a pattern already compiled. -/
def pySub (rx : Rx) (rep s : List Char) : List Char :=
  pySubFuel rx rep (s.length + 1) s

/-- Model of `re.sub(old, new, content)`: compile the pattern, then
substitute every non-overlapping leftmost match. (On the patterns the script
uses, compilation always succeeds; the `none` branch is never taken.) -/
def reSub (p rep s : List Char) : List Char :=
  match pyParse p with
  | some rx => pySub rx rep s
  | none => s

/-- Plain literal substring replacement (the spec's reading of a rule):
replace every non-overlapping occurrence of `p`, leftmost first. -/
def replaceAllFuel (p r : List Char) : Nat → List Char → List Char
  | 0, s => s
  | f + 1, s =>
    if p.isPrefixOf s ∧ p ≠ [] then r ++ replaceAllFuel p r f (s.drop p.length)
    else
      match s with
      | [] => []
      | c :: cs => c :: replaceAllFuel p r f cs

/-- Literal substring replacement of `p` by `r` in `s`. -/
def replaceAll (p r s : List Char) : List Char :=
  replaceAllFuel p r (s.length + 1) s

/-- The `REPLACEMENTS` list of `apply_dark_theme.py`, verbatim. -/
def REPLACEMENTS : List (String × String) := [
  ("className=\"min-h-screen bg-gray-50\"", "className=\"min-h-screen bg-black text-white\""),
  ("<Card className=\"hover:shadow-lg", "<Card className=\"bg-white/5 backdrop-blur-sm border-white/10 hover:shadow-lg"),
  ("<Card>", "<Card className=\"bg-white/5 backdrop-blur-sm border-white/10\">"),
  ("<Card className=\"", "<Card className=\"bg-white/5 backdrop-blur-sm border-white/10 "),
  ("border-gray-100", "border-white/10"),
  ("border-gray-200", "border-white/10"),
  ("divide-gray-100", "divide-white/10"),
  ("divide-gray-200", "divide-white/10"),
  ("bg-gray-50", "bg-white/5"),
  ("bg-gray-100", "bg-white/5"),
  ("bg-white", "bg-white/5"),
  ("bg-gray-200", "bg-white/10"),
  ("text-gray-900", "text-white"),
  ("text-gray-700", "text-gray-400"),
  ("text-gray-600", "text-gray-400"),
  ("hover:bg-gray-50", "hover:bg-white/5 transition-colors"),
  ("hover:bg-gray-100", "hover:bg-white/10 transition-colors"),
  ("className=\"bg-gray-50\"", "className=\"bg-white/5\""),
  ("text-gray-500 uppercase", "text-gray-400 uppercase")]

/-- The `for old, new in REPLACEMENTS` loop: apply each rule, in list order,
to the current (already-modified) content. -/
def applyList : List (String × String) → List Char → List Char
  | [], content => content
  | (old, new) :: rest, content => applyList rest (reSub old.data new.data content)

/-- One full pass of the rewriter over a content string. -/
def applyReplacements (content : List Char) : List Char :=
  applyList REPLACEMENTS content

/-- The transformation on `String`s. -/
def darkThemeTransform (s : String) : String :=
  ⟨applyReplacements s.data⟩

/-- A filesystem: each path maps to its text content, or to `none` when the
file does not exist, cannot be read, or cannot be decoded (i.e. when
`open`/`read` raises; writes are modelled as succeeding). -/
def FS : Type := String → Option String

/-- Overwrite one path of a filesystem. -/
def writeFile (fs : FS) (path content : String) : FS :=
  fun q => if q = path then some content else fs q

/-- The function `apply_dark_theme(filepath)`: read the file (an exception is
caught and yields `False` with nothing written), apply all replacements, and
write back exactly when the content changed, returning `True` on a write and
`False` otherwise. Returns the reported boolean and the resulting
filesystem. -/
def apply_dark_theme (fs : FS) (filepath : String) : Bool × FS :=
  match fs filepath with
  | none => (false, fs)
  | some content =>
    let newContent := darkThemeTransform content
    if newContent = content then (false, fs)
    else (true, writeFile fs filepath newContent)

/-- The `__main__` loop: process every target in order, threading the
filesystem, and count the files for which `apply_dark_theme` returned
`True`. -/
def runBatch (fs : FS) : List String → Nat × FS
  | [] => (0, fs)
  | path :: rest =>
    let r := apply_dark_theme fs path
    let r2 := runBatch r.2 rest
    (r2.1 + (if r.1 then 1 else 0), r2.2)

/-- Per-file booleans reported over a batch, in order, threading the
filesystem (the sequence of `Updated`/not-updated outcomes). -/
def batchResults (fs : FS) : List String → List Bool
  | [] => []
  | path :: rest =>
    let r := apply_dark_theme fs path
    r.1 :: batchResults r.2 rest

/-- Regex matching exactly the literal character list `p`. -/
def litRx : List Char → Rx
  | [] => .eps
  | c :: cs => .seq (.ch c) (litRx cs)

/-- A pattern that contains no regex metacharacter. -/
def isLitPat (p : List Char) : Bool := p.all (fun c => !isMeta c)

/-- Declarative specification of one rule application, read off the spec:
scan left to right; at a position where the pattern occurs, emit the
replacement and continue after the occurrence (non-overlapping); otherwise
keep the character. `ReplSpec p r s t` says `t` is the leftmost-first
non-overlapping replacement of `p` by `r` in `s`. -/
inductive ReplSpec (p r : List Char) : List Char → List Char → Prop
  | nil : ReplSpec p r [] []
  | hit (s t : List Char) : p ≠ [] → p.isPrefixOf s →
      ReplSpec p r (s.drop p.length) t → ReplSpec p r s (r ++ t)
  | miss (c : Char) (cs t : List Char) : ¬ p.isPrefixOf (c :: cs) →
      ReplSpec p r cs t → ReplSpec p r (c :: cs) (c :: t)


/-- Example filesystem: one target whose content a pass changes. -/
def fsOne : FS := fun p => if p = "Servicos.tsx" then some "bg-gray-50" else none

/-- Example filesystem: every path readable, same content everywhere. -/
def fsTwo : FS := fun _ => some "<Card>"

/-- Example filesystem: no path is readable. -/
def fsNone : FS := fun _ => none

/-- Example filesystem: one target holding a bare `<Card>`. -/
def fsCard : FS := fun p => if p = "Agendamentos.tsx" then some "<Card>" else none

lemma isLitPat_cons {c : Char} {cs : List Char} (h : isLitPat (c :: cs) = true) :
    isMeta c = false ∧ isLitPat cs = true := by
  simp only [isLitPat, List.all_cons, Bool.and_eq_true, Bool.not_eq_true'] at h ⊢
  exact h

lemma not_meta_ne {c : Char} (h : isMeta c = false) :
    c ≠ '.' ∧ c ≠ '*' ∧ c ≠ '+' ∧ c ≠ '?' ∧ c ≠ '|' := by
  simp only [isMeta, Bool.or_eq_false_iff, decide_eq_false_iff_not] at h
  obtain ⟨⟨⟨⟨⟨⟨⟨⟨⟨⟨⟨⟨⟨h1, _⟩, _⟩, h4⟩, h5⟩, h6⟩, _⟩, _⟩, _⟩, _⟩, _⟩, h12⟩, _⟩, _⟩ := h
  exact ⟨h1, h4, h5, h6, h12⟩

lemma parseAtom_lit {c : Char} (cs : List Char) (h : isMeta c = false) :
    parseAtom (c :: cs) = some (.ch c, cs) := by
  have hne := not_meta_ne h
  simp [parseAtom, hne.1, h]

lemma parseQuant_lit (a : Rx) {cs : List Char} (h : isLitPat cs = true) :
    parseQuant a cs = (a, cs) := by
  cases cs with
  | nil => rfl
  | cons d cs' =>
    have hd := not_meta_ne (isLitPat_cons h).1
    simp [parseQuant, hd.2.1, hd.2.2.1, hd.2.2.2.1]

lemma parseSeqFuel_lit :
    ∀ (p : List Char) {f : Nat}, isLitPat p = true → p.length < f →
      parseSeqFuel f p = some (litRx p, [])
  | [], f, _, hf => by
    obtain ⟨g, rfl⟩ := Nat.exists_eq_add_of_lt hf
    simp [parseSeqFuel, litRx]
  | c :: cs, f, hp, hf => by
    obtain ⟨hc, hcs⟩ := isLitPat_cons hp
    obtain ⟨g, rfl⟩ : ∃ g, f = g + 1 := ⟨f - 1, by omega⟩
    have hbar := (not_meta_ne hc).2.2.2.2
    have hrec := parseSeqFuel_lit cs hcs (f := g) (by simpa using Nat.lt_of_succ_lt_succ hf)
    simp [parseSeqFuel, hbar, parseAtom_lit cs hc, parseQuant_lit (Rx.ch c) hcs, hrec, litRx]

lemma pyParse_lit (p : List Char) (h : isLitPat p = true) :
    pyParse p = some (litRx p) := by
  have hseq := parseSeqFuel_lit p (f := p.length + 1) h (Nat.lt_succ_self _)
  simp [pyParse, parseAltFuel, hseq]

lemma rxRun_lit :
    ∀ (p : List Char) {f : Nat} (s : List Char), p.length < f →
      rxRun f (litRx p) s = if p.isPrefixOf s then [s.drop p.length] else []
  | [], f, s, hf => by
    obtain ⟨g, rfl⟩ : ∃ g, f = g + 1 := ⟨f - 1, by omega⟩
    simp [litRx, rxRun, List.isPrefixOf]
  | c :: cs, f, s, hf => by
    obtain ⟨g, rfl⟩ : ∃ g, f = g + 1 := ⟨f - 1, by omega⟩
    have hg : cs.length < g := by simpa using Nat.lt_of_succ_lt_succ hf
    obtain ⟨g2, rfl⟩ : ∃ g2, g = g2 + 1 := ⟨g - 1, by omega⟩
    cases s with
    | nil => simp [litRx, rxRun, List.isPrefixOf]
    | cons a s2 =>
      by_cases hac : a = c
      · subst hac
        have hrec := rxRun_lit cs s2 hg
        simp [litRx, rxRun, hrec, List.isPrefixOf_iff_prefix,
          List.cons_prefix_cons, List.drop_succ_cons]
      · simp [litRx, rxRun, List.isPrefixOf, hac, Ne.symm hac, beq_false_of_ne]

lemma rxMeasure_litRx (p : List Char) : rxMeasure (litRx p) = 2 * p.length + 1 := by
  induction p with
  | nil => simp [litRx, rxMeasure]
  | cons c cs ih => simp [litRx, rxMeasure, ih]; omega

lemma rxFirst_lit (p s : List Char) :
    rxFirst (litRx p) s = if p.isPrefixOf s then some p.length else none := by
  have hfuel : p.length < (s.length + 1) * (rxMeasure (litRx p) + 1) := by
    have h1 : 1 * (rxMeasure (litRx p) + 1) ≤ (s.length + 1) * (rxMeasure (litRx p) + 1) :=
      Nat.mul_le_mul_right _ (by omega)
    rw [rxMeasure_litRx] at h1 ⊢
    omega
  rw [rxFirst, rxRun_lit p s hfuel]
  by_cases hpre : p.isPrefixOf s
  · have hlen : p.length ≤ s.length :=
      (List.isPrefixOf_iff_prefix.mp hpre).length_le
    simp [hpre, List.length_drop]
    omega
  · simp [hpre]

lemma pySubFuel_succ (rx : Rx) (rep : List Char) (g : Nat) (s : List Char) :
    pySubFuel rx rep (g + 1) s = (match rxFirst rx s with
      | none => match s with | [] => [] | c :: cs => c :: pySubFuel rx rep g cs
      | some 0 => match s with | [] => rep | c :: cs => rep ++ c :: pySubFuel rx rep g cs
      | some (n + 1) => rep ++ pySubFuel rx rep g (s.drop (n + 1))) := rfl

lemma replaceAllFuel_succ (p r : List Char) (g : Nat) (s : List Char) :
    replaceAllFuel p r (g + 1) s =
      (if p.isPrefixOf s ∧ p ≠ [] then r ++ replaceAllFuel p r g (s.drop p.length)
       else match s with | [] => [] | c :: cs => c :: replaceAllFuel p r g cs) := rfl

lemma pySubFuel_lit (p : List Char) (hp : p ≠ []) (r : List Char) :
    ∀ (f : Nat) (s : List Char), pySubFuel (litRx p) r f s = replaceAllFuel p r f s := by
  intro f
  induction f with
  | zero => intro s; rfl
  | succ g ih =>
    intro s
    rw [pySubFuel_succ, replaceAllFuel_succ, rxFirst_lit p s]
    by_cases hpre : p.isPrefixOf s
    · obtain ⟨n, hn⟩ : ∃ n, p.length = n + 1 := by
        cases p with
        | nil => exact absurd rfl hp
        | cons c cs => exact ⟨cs.length, rfl⟩
      rw [if_pos hpre, if_pos ⟨hpre, hp⟩, hn]
      simp only [ih]
    · rw [if_neg hpre, if_neg (by simp [hpre])]
      cases s with
      | nil => simp
      | cons c cs => simp [ih]

lemma reSub_lit (p : List Char) (hp : p ≠ []) (hl : isLitPat p = true) (r s : List Char) :
    reSub p r s = replaceAll p r s := by
  rw [reSub, pyParse_lit p hl]
  exact pySubFuel_lit p hp r (s.length + 1) s

lemma replaceAllFuel_spec (p : List Char) (hp : p ≠ []) (r : List Char) :
    ∀ (f : Nat) (s : List Char), s.length ≤ f →
      ReplSpec p r s (replaceAllFuel p r f s) := by
  intro f
  induction f with
  | zero =>
    intro s hs
    rw [List.length_eq_zero.mp (Nat.le_zero.mp hs)]
    exact ReplSpec.nil
  | succ g ih =>
    intro s hs
    rw [replaceAllFuel_succ]
    by_cases hpre : p.isPrefixOf s
    · rw [if_pos ⟨hpre, hp⟩]
      refine ReplSpec.hit s _ hp hpre (ih _ ?_)
      have hplen : 1 ≤ p.length := by
        cases p with
        | nil => exact absurd rfl hp
        | cons _ _ => simp
      simp only [List.length_drop]
      omega
    · rw [if_neg (by simp [hpre])]
      cases s with
      | nil => exact ReplSpec.nil
      | cons c cs =>
        exact ReplSpec.miss c cs _ hpre (ih cs (by simpa using Nat.le_of_succ_le_succ hs))

lemma replaceAll_spec (p : List Char) (hp : p ≠ []) (r s : List Char) :
    ReplSpec p r s (replaceAll p r s) :=
  replaceAllFuel_spec p hp r (s.length + 1) s (Nat.le_succ _)

lemma ReplSpec_unique {p r : List Char} :
    ∀ {s t1 t2 : List Char}, ReplSpec p r s t1 → ReplSpec p r s t2 → t1 = t2 := by
  intro s t1 t2 h1 h2
  induction h1 generalizing t2 with
  | nil =>
    cases h2 with
    | nil => rfl
    | hit s t hp hpre _ =>
      exact absurd (List.isPrefixOf_iff_prefix.mp hpre) (by simpa using hp)
  | hit s t hp hpre hrec ih =>
    cases h2 with
    | nil => exact absurd (List.isPrefixOf_iff_prefix.mp hpre) (by simpa using hp)
    | hit _ t' hp' hpre' hrec' => rw [ih hrec']
    | miss c cs t' hnpre _ => exact absurd hpre hnpre
  | miss c cs t hnpre hrec ih =>
    cases h2 with
    | hit _ t' hp' hpre' _ => exact absurd hpre' hnpre
    | miss _ _ t' _ hrec' => rw [ih hrec']

/-- Every pattern of `REPLACEMENTS` is a nonempty, purely literal string:
none of Python's regex metacharacters occurs in it. -/
lemma replacements_literal :
    ∀ pr ∈ REPLACEMENTS, pr.1.data ≠ [] ∧ isLitPat pr.1.data = true := by decide

lemma applyList_foldl (rules : List (String × String)) (content : List Char) :
    applyList rules content =
      rules.foldl (fun c pr => reSub pr.1.data pr.2.data c) content := by
  induction rules generalizing content with
  | nil => rfl
  | cons pr rest ih => simp [applyList, List.foldl_cons, ih]

lemma applyList_lit (rules : List (String × String))
    (h : ∀ pr ∈ rules, pr.1.data ≠ [] ∧ isLitPat pr.1.data = true) (content : List Char) :
    applyList rules content =
      rules.foldl (fun c pr => replaceAll pr.1.data pr.2.data c) content := by
  induction rules generalizing content with
  | nil => rfl
  | cons pr rest ih =>
    have hpr := h pr (List.mem_cons_self pr rest)
    have hrest : ∀ q ∈ rest, q.1.data ≠ [] ∧ isLitPat q.1.data = true :=
      fun q hq => h q (List.mem_cons_of_mem pr hq)
    simp only [applyList, List.foldl_cons, ih hrest,
      reSub_lit pr.1.data hpr.1 hpr.2 pr.2.data content]

/-- The regex-engine pass and the plain literal-replacement pass agree. -/
lemma applyReplacements_eq_lit (content : List Char) :
    applyReplacements content =
      REPLACEMENTS.foldl (fun c pr => replaceAll pr.1.data pr.2.data c) content :=
  applyList_lit REPLACEMENTS replacements_literal content

lemma apply_dark_theme_none {fs : FS} {path : String} (h : fs path = none) :
    apply_dark_theme fs path = (false, fs) := by
  simp [apply_dark_theme, h]

lemma apply_dark_theme_some_eq {fs : FS} {path content : String}
    (h : fs path = some content) (heq : darkThemeTransform content = content) :
    apply_dark_theme fs path = (false, fs) := by
  simp [apply_dark_theme, h, heq]

lemma apply_dark_theme_some_ne {fs : FS} {path content : String}
    (h : fs path = some content) (hne : darkThemeTransform content ≠ content) :
    apply_dark_theme fs path =
      (true, writeFile fs path (darkThemeTransform content)) := by
  simp [apply_dark_theme, h, hne]

lemma apply_dark_theme_frame (fs : FS) (path q : String) (hq : q ≠ path) :
    (apply_dark_theme fs path).2 q = fs q := by
  rw [apply_dark_theme]
  cases h : fs path with
  | none => rfl
  | some content =>
    by_cases heq : darkThemeTransform content = content
    · simp [heq]
    · simp [heq, writeFile, hq]

lemma runBatch_frame (fs : FS) (paths : List String) (q : String) (hq : q ∉ paths) :
    (runBatch fs paths).2 q = fs q := by
  induction paths generalizing fs with
  | nil => rfl
  | cons p rest ih =>
    have hqp : q ≠ p := fun h => hq (h ▸ List.mem_cons_self p rest)
    have hqrest : q ∉ rest := fun h => hq (List.mem_cons_of_mem p h)
    calc (runBatch fs (p :: rest)).2 q
        = (runBatch (apply_dark_theme fs p).2 rest).2 q := rfl
      _ = (apply_dark_theme fs p).2 q := ih _ hqrest
      _ = fs q := apply_dark_theme_frame fs p q hqp

lemma apply_dark_theme_preserves_none (fs : FS) (path q : String)
    (h : fs q = none) : (apply_dark_theme fs path).2 q = none := by
  rw [apply_dark_theme]
  cases hf : fs path with
  | none => exact h
  | some content =>
    by_cases heq : darkThemeTransform content = content
    · simp [heq, h]
    · have hq : q ≠ path := fun he => by rw [he, hf] at h; exact Option.noConfusion h
      simp [heq, writeFile, hq, h]

lemma runBatch_preserves_none (fs : FS) (paths : List String) (q : String)
    (h : fs q = none) : (runBatch fs paths).2 q = none := by
  induction paths generalizing fs with
  | nil => exact h
  | cons p rest ih =>
    exact ih (apply_dark_theme fs p).2 (apply_dark_theme_preserves_none fs p q h)

lemma runBatch_append (fs : FS) (l1 l2 : List String) :
    runBatch fs (l1 ++ l2) =
      ((runBatch fs l1).1 + (runBatch (runBatch fs l1).2 l2).1,
        (runBatch (runBatch fs l1).2 l2).2) := by
  induction l1 generalizing fs with
  | nil => simp [runBatch]
  | cons p rest ih =>
    simp only [List.cons_append, runBatch, List.append_eq, ih]
    refine Prod.ext ?_ rfl
    simp only
    omega

lemma batchResults_length (fs : FS) (paths : List String) :
    (batchResults fs paths).length = paths.length := by
  induction paths generalizing fs with
  | nil => rfl
  | cons p rest ih => simp [batchResults, ih]

lemma runBatch_count (fs : FS) (paths : List String) :
    (runBatch fs paths).1 =
      ((batchResults fs paths).filter (fun b => b)).length := by
  induction paths generalizing fs with
  | nil => rfl
  | cons p rest ih =>
    simp only [runBatch, batchResults, List.filter_cons]
    by_cases hb : (apply_dark_theme fs p).1 <;> simp [hb, ih]

set_option maxRecDepth 100000

/-- C1: the spec scenario fails on the code. One pass of the transformation on
`<Card>` does not produce `<Card className="bg-white/5 backdrop-blur-sm
border-white/10">` with the class string injected exactly once: rule 3
produces that string, but rule 4 (`<Card className="`) then re-matches it and
injects the class block a second time, and rule 11 (`bg-white`) rewrites the
previously-produced `bg-white/5` to `bg-white/5/5`. This theorem evaluates
the code at the failing input. -/
theorem claim_C1_eval :
    darkThemeTransform "<Card>" =
      "<Card className=\"bg-white/5/5 backdrop-blur-sm border-white/10 bg-white/5/5 backdrop-blur-sm border-white/10\">" ∧
    darkThemeTransform "<Card>" ≠
      "<Card className=\"bg-white/5 backdrop-blur-sm border-white/10\">" := by
  have h : darkThemeTransform "<Card>" =
      "<Card className=\"bg-white/5/5 backdrop-blur-sm border-white/10 bg-white/5/5 backdrop-blur-sm border-white/10\">" := by
    decide
  exact ⟨h, by rw [h]; decide⟩

/-- C2: the spec scenario fails on the code. One pass on
`<div className="bg-gray-50 border-gray-200">` applies the border rule and
the background rule, but rule 11 (`bg-white`) then rewrites the freshly
produced `bg-white/5` to `bg-white/5/5`, so the result is not
`<div className="bg-white/5 border-white/10">`. This theorem evaluates the
code at the failing input. -/
theorem claim_C2_eval :
    darkThemeTransform "<div className=\"bg-gray-50 border-gray-200\">" =
      "<div className=\"bg-white/5/5 border-white/10\">" ∧
    darkThemeTransform "<div className=\"bg-gray-50 border-gray-200\">" ≠
      "<div className=\"bg-white/5 border-white/10\">" := by
  have h : darkThemeTransform "<div className=\"bg-gray-50 border-gray-200\">" =
      "<div className=\"bg-white/5/5 border-white/10\">" := by decide
  exact ⟨h, by rw [h]; decide⟩

/-- C3: the full pass is not idempotent. On input `bg-white` one pass gives
`bg-white/5`, and a second pass gives `bg-white/5/5` (rule 11's pattern
`bg-white` matches its own output), so applying the list twice differs from
applying it once; consequently the rewriter run on a file whose content is
already the output of one pass reports Updated (returns true) and writes,
instead of Unchanged. This theorem evaluates the code at the failing
input. -/
theorem claim_C3_eval :
    darkThemeTransform (darkThemeTransform "bg-white") ≠
      darkThemeTransform "bg-white" ∧
    darkThemeTransform "bg-white" = "bg-white/5" ∧
    darkThemeTransform "bg-white/5" = "bg-white/5/5" ∧
    (apply_dark_theme (fun _ => some (darkThemeTransform "bg-white")) "Servicos.tsx").1
      = true := by
  have h1 : darkThemeTransform "bg-white" = "bg-white/5" := by decide
  have h2 : darkThemeTransform "bg-white/5" = "bg-white/5/5" := by decide
  refine ⟨by rw [h1, h2]; decide, h1, h2, ?_⟩
  rw [apply_dark_theme]
  simp only [h1]
  rw [h2]
  simp

/-- C4: a pass applies each rule exactly once and in list order, each rule on
the content already modified by the earlier rules (`applyList` is the fold of
single-rule application over the rule list); each rule of `REPLACEMENTS`
replaces every non-overlapping occurrence of its pattern leftmost-first, as
captured by the declarative relation `ReplSpec`, which is moreover
functional, so that semantics pins the result down uniquely. -/
theorem claim_C4 :
    (∀ (rules : List (String × String)) (content : List Char),
        applyList rules content =
          rules.foldl (fun c pr => reSub pr.1.data pr.2.data c) content) ∧
    (∀ pr ∈ REPLACEMENTS, ∀ s : List Char,
        ReplSpec pr.1.data pr.2.data s (reSub pr.1.data pr.2.data s)) ∧
    (∀ (p r s t1 t2 : List Char),
        ReplSpec p r s t1 → ReplSpec p r s t2 → t1 = t2) := by
  refine ⟨applyList_foldl, ?_, fun p r s t1 t2 h1 h2 => ReplSpec_unique h1 h2⟩
  intro pr hpr s
  have h := replacements_literal pr hpr
  rw [reSub_lit pr.1.data h.1 h.2]
  exact replaceAll_spec pr.1.data h.1 pr.2.data s

/-- Witness for C4 at a concrete rule and input: rule 11 (`bg-white`)
replaces the occurrence in `<p bg-white>` per the leftmost-first
specification. -/
theorem claim_C4_witness :
    ReplSpec "bg-white".data "bg-white/5".data "<p bg-white>".data
      (reSub "bg-white".data "bg-white/5".data "<p bg-white>".data) :=
  claim_C4.2.1 ("bg-white", "bg-white/5") (by decide) "<p bg-white>".data

/-- C5: the rewriter writes iff the transformed content differs from the
original. When the transform is the identity on the content, the call returns
false (Unchanged) and the filesystem is exactly the one before the call (no
write, byte-for-byte identical, in particular when no pattern occurs); when
it differs, the call returns true (Updated) and the file is overwritten at
the same path with the transformed text. -/
theorem claim_C5 (fs : FS) (path content : String) (h : fs path = some content) :
    apply_dark_theme fs path =
      if darkThemeTransform content = content then (false, fs)
      else (true, writeFile fs path (darkThemeTransform content)) := by
  by_cases heq : darkThemeTransform content = content
  · rw [if_pos heq]
    exact apply_dark_theme_some_eq h heq
  · rw [if_neg heq]
    exact apply_dark_theme_some_ne h heq

/-- Witness for C5: on a file holding `bg-gray-50` the transform changes the
content, so the call updates the file in place and reports true. -/
theorem claim_C5_witness :
    apply_dark_theme fsOne "Servicos.tsx" =
      (true, writeFile fsOne "Servicos.tsx" (darkThemeTransform "bg-gray-50")) := by
  have h := claim_C5 fsOne "Servicos.tsx" "bg-gray-50" (by decide)
  rw [h, if_neg (by decide)]

/-- C6: per-file failure is isolated and the summary counts exactly the
updates. A target whose read fails (an unreadable
path stays unreadable for the whole batch, since writes only go to paths
that were read successfully) leaves the batch outcome exactly as if the target
were absent — every subsequent target is still processed; moreover every
target yields exactly one per-file outcome and the final count equals the
number of targets that reported Updated. -/
theorem claim_C6 :
    (∀ (fs : FS) (l1 l2 : List String) (bad : String),
        fs bad = none →
        runBatch fs (l1 ++ bad :: l2) = runBatch fs (l1 ++ l2)) ∧
    (∀ (fs : FS) (paths : List String),
        (batchResults fs paths).length = paths.length ∧
        (runBatch fs paths).1 =
          ((batchResults fs paths).filter (fun b => b)).length) := by
  constructor
  · intro fs l1 l2 bad hbad
    have hfs1 : (runBatch fs l1).2 bad = none :=
      runBatch_preserves_none fs l1 bad hbad
    have hskip : runBatch (runBatch fs l1).2 (bad :: l2) =
        runBatch (runBatch fs l1).2 l2 := by
      simp only [runBatch, apply_dark_theme_none hfs1]
      simp
    rw [runBatch_append fs l1 (bad :: l2), runBatch_append fs l1 l2, hskip]
  · intro fs paths
    exact ⟨batchResults_length fs paths, runBatch_count fs paths⟩

/-- Witness for C6 at a concrete batch: a missing path in front of a valid
target changes nothing about the batch outcome. -/
theorem claim_C6_witness :
    runBatch fsOne ([] ++ "missing.tsx" :: ["Servicos.tsx"]) =
      runBatch fsOne ([] ++ ["Servicos.tsx"]) :=
  claim_C6.1 fsOne [] ["Servicos.tsx"] "missing.tsx" (by decide)

/-- C8: at the interface, Failed and Unchanged are indistinguishable: the
call returns true exactly when the file was readable and its content is
changed by the transformation (a successful write of changed content); it
returns false both when the read raises and when the content is a fixed
point, so the boolean cannot separate an error from a no-op. -/
theorem claim_C8 (fs : FS) (path : String) :
    ((apply_dark_theme fs path).1 = true ↔
      ∃ content, fs path = some content ∧ darkThemeTransform content ≠ content) ∧
    (fs path = none → (apply_dark_theme fs path).1 = false) ∧
    (∀ content, fs path = some content → darkThemeTransform content = content →
      (apply_dark_theme fs path).1 = false) := by
  refine ⟨?_, ?_, ?_⟩
  · constructor
    · intro htrue
      cases h : fs path with
      | none => rw [apply_dark_theme_none h] at htrue; exact absurd htrue (by simp)
      | some content =>
        by_cases heq : darkThemeTransform content = content
        · rw [apply_dark_theme_some_eq h heq] at htrue
          exact absurd htrue (by simp)
        · exact ⟨content, rfl, heq⟩
    · rintro ⟨content, h, hne⟩
      rw [apply_dark_theme_some_ne h hne]
  · intro h
    rw [apply_dark_theme_none h]
  · intro content h heq
    rw [apply_dark_theme_some_eq h heq]

/-- Witness for C8: an unreadable file and an already-converted file both
report false. -/
theorem claim_C8_witness :
    (apply_dark_theme fsNone "Servicos.tsx").1 = false ∧
    (apply_dark_theme (fun _ => some "zzz") "Servicos.tsx").1 = false :=
  ⟨(claim_C8 fsNone "Servicos.tsx").2.1 rfl,
    (claim_C8 (fun _ => some "zzz") "Servicos.tsx").2.2 "zzz" rfl (by decide)⟩

/-- C9: a read-side failure performs no write at all: when the path is
unreadable the call returns false and the filesystem after the call is the
very filesystem from before it. -/
theorem claim_C9 (fs : FS) (path : String) (h : fs path = none) :
    apply_dark_theme fs path = (false, fs) :=
  apply_dark_theme_none h

/-- Witness for C9 on a concrete filesystem with no readable file. -/
theorem claim_C9_witness :
    apply_dark_theme fsNone "DashboardVendas.tsx" = (false, fsNone) :=
  claim_C9 fsNone "DashboardVendas.tsx" rfl

/-- C10: the transformation is deterministic and content-only: whenever two
files (under any filesystems and paths, hence at any batch position) hold
equal content, the Updated decision is the same, the content stored at the
path afterwards is the same transformed string in both runs, and the
decision depends only on whether the fixed rule list changes the content. -/
theorem claim_C10 (fs1 fs2 : FS) (p1 p2 content : String)
    (h1 : fs1 p1 = some content) (h2 : fs2 p2 = some content) :
    (apply_dark_theme fs1 p1).1 = (apply_dark_theme fs2 p2).1 ∧
    (apply_dark_theme fs1 p1).2 p1 = some (darkThemeTransform content) ∧
    (apply_dark_theme fs2 p2).2 p2 = some (darkThemeTransform content) ∧
    ((apply_dark_theme fs1 p1).1 = true ↔ darkThemeTransform content ≠ content) := by
  by_cases heq : darkThemeTransform content = content
  · rw [apply_dark_theme_some_eq h1 heq, apply_dark_theme_some_eq h2 heq]
    refine ⟨rfl, ?_, ?_, by simp [heq]⟩
    · simpa [heq] using h1
    · simpa [heq] using h2
  · rw [apply_dark_theme_some_ne h1 heq, apply_dark_theme_some_ne h2 heq]
    refine ⟨rfl, ?_, ?_, by simp [heq]⟩
    · simp [writeFile]
    · simp [writeFile]

/-- Witness for C10: two different filesystems and paths holding the same
`<Card>` content report the same decision. -/
theorem claim_C10_witness :
    (apply_dark_theme fsCard "Agendamentos.tsx").1 =
      (apply_dark_theme fsTwo "DashboardClientes.tsx").1 :=
  (claim_C10 fsCard fsTwo "Agendamentos.tsx" "DashboardClientes.tsx" "<Card>"
    (by decide) rfl).1

/-- C7: every pattern of `REPLACEMENTS` behaves as a literal string. The pass
through the regex substitution engine (`reSub`, the model of `re.sub`)
coincides, on every input text, with the pass that replaces each pattern by
plain literal (non-regex) substring replacement; and already each single
rule's regex substitution equals literal replacement of its pattern. -/
theorem claim_C7 :
    (∀ content : List Char,
        applyReplacements content =
          REPLACEMENTS.foldl (fun c pr => replaceAll pr.1.data pr.2.data c) content) ∧
    (∀ pr ∈ REPLACEMENTS, ∀ s : List Char,
        reSub pr.1.data pr.2.data s = replaceAll pr.1.data pr.2.data s) := by
  refine ⟨applyReplacements_eq_lit, ?_⟩
  intro pr hpr s
  have h := replacements_literal pr hpr
  exact reSub_lit pr.1.data h.1 h.2 pr.2.data s

/-- Witness for C7 at a concrete rule and input: the regex substitution of
rule 11 agrees with literal replacement on `x bg-white y`. -/
theorem claim_C7_witness :
    reSub "bg-white".data "bg-white/5".data "x bg-white y".data =
      replaceAll "bg-white".data "bg-white/5".data "x bg-white y".data :=
  claim_C7.2 ("bg-white", "bg-white/5") (by decide) "x bg-white y".data
